import Mathlib

/-!
Verification of the daily-book extraction pipeline.

The development shallowly embeds the two extraction strategies of the
repository: Strategy A, the inline calendar-marker segmenter of
extract_calendar_of_wisdom.py, and Strategy B, the titled-chapter date
parser of extract_epub.py. Python strings are lists of characters;
the regex patterns of the source, which are fixed and simple, are
translated into explicit deterministic scanners that implement the
leftmost-search and greedy-with-backtracking semantics of Python's
re module for exactly those patterns.
-/

namespace DailyBook

/-- Characters of a Python string. -/
abbrev Str := List Char

/-- The entry store: an insertion-ordered association list, modelling a
Python dict from date keys to entry texts. -/
abbrev Store := List (Str × Str)

/-- ASCII whitespace as recognized by Python's regex class backslash-s and
by str.strip for the ASCII range. -/
def pyIsSpace (c : Char) : Bool :=
  c == ' ' || c == '\t' || c == '\n' || c == '\r' || c == '\x0b' || c == '\x0c'

/-- ASCII decimal digit, the regex class backslash-d for the ASCII range. -/
def isDigitC (c : Char) : Bool :=
  decide ('0' ≤ c) && decide (c ≤ '9')

/-- ASCII lower-casing, the effect of Python str.lower and of the
re.IGNORECASE flag on the ASCII month names used by the source. -/
def lowerChar (c : Char) : Char :=
  if 'A' ≤ c ∧ c ≤ 'Z' then Char.ofNat (c.toNat + 32) else c

/-- Case-insensitive literal match of a pattern word against the start of
a text suffix. -/
def matchesCI : Str → Str → Bool
  | [], _ => true
  | _ :: _, [] => false
  | p :: ps, c :: cs => lowerChar p == lowerChar c && matchesCI ps cs

/-- Association-list lookup, modelling Python dict lookup and the
`in` membership test. -/
def lookupKey : Store → Str → Option Str
  | [], _ => none
  | (k, v) :: rest, key => if k = key then some v else lookupKey rest key

/-- The month table of extract_calendar_of_wisdom.month_to_number, in
source order (which is also the regex alternation order of Strategy A). -/
def monthsA : List (Str × Str) :=
  [("january".data, "01".data), ("february".data, "02".data),
   ("march".data, "03".data), ("april".data, "04".data),
   ("may".data, "05".data), ("june".data, "06".data),
   ("july".data, "07".data), ("august".data, "08".data),
   ("september".data, "09".data), ("october".data, "10".data),
   ("november".data, "11".data), ("december".data, "12".data)]

/-- The twelve full month names, the alternation of Strategy A's
date_pattern in source order. -/
def monthNamesA : List Str := monthsA.map Prod.fst

/-- month_to_number: lower-case the name and look it up in the table. -/
def monthToNumber (m : Str) : Option Str :=
  lookupKey monthsA (m.map lowerChar)

/-- First alternative of `names` matching case-insensitively at the head
of `s`; returns the matched slice of `s` (original case) and its length.
Faithful to regex alternation because no Strategy A month name is a
prefix of another, so at most one alternative can match at a position. -/
def matchAlt : List Str → Str → Option (Str × Nat)
  | [], _ => none
  | n :: rest, s =>
    if matchesCI n s then some (s.take n.length, n.length) else matchAlt rest s

/-- Index (within the leading whitespace run of `s`) of the last newline
of that run, tracked while scanning; returns the running best at the
first non-whitespace character. -/
def lastNlAux : Str → Nat → Option Nat → Option Nat
  | [], _, best => best
  | c :: cs, i, best =>
    if pyIsSpace c then lastNlAux cs (i + 1) (if c == '\n' then some i else best)
    else best

/-- Number of characters consumed by the regex tail `\s*\n` at the head
of `s`: greedy whitespace with backtracking consumes up to and including
the last newline of the maximal leading whitespace run, or fails. -/
def lastNlRun (s : Str) : Option Nat :=
  (lastNlAux s 0 none).map (· + 1)

/-- Regex tail `(\d{1,2})\s*\n` at the head of `r3`: a greedy digit run
of one or two digits (a longer run fails the attempt, since backtracking
from two digits to one cannot restore the required newline), then the
whitespace-and-newline tail. Returns the captured digits and the number
of characters consumed. -/
def markerTail2 (r3 : Str) : Option (Str × Nat) :=
  let digs := r3.takeWhile isDigitC
  if digs.length = 0 ∨ 2 < digs.length then none
  else
    match lastNlRun (r3.drop digs.length) with
    | none => none
    | some t => some (digs, digs.length + t)

/-- Regex tail `\s+(\d{1,2})\s*\n` at the head of `r2`: the greedy
whitespace run is maximal and must be non-empty (a shorter run would
leave a whitespace character where a digit is required). -/
def markerTail1 (r2 : Str) : Option (Str × Nat) :=
  let w2 := (r2.takeWhile pyIsSpace).length
  if w2 = 0 then none
  else
    match markerTail2 (r2.drop w2) with
    | none => none
    | some (digs, k) => some (digs, w2 + k)

/-- Attempt to match Strategy A's date_pattern
`\n\s*(Month)\s+(\d{1,2})\s*\n` (re.IGNORECASE) at the head of `s`.
Returns the captured month slice, the captured day digits, and the
total number of characters consumed. The leading greedy whitespace run
is maximal (a shorter run would leave a whitespace character where a
month letter is required). -/
def tryMatchMarker (s : Str) : Option (Str × Str × Nat) :=
  match s with
  | [] => none
  | c :: cs =>
    if c = '\n' then
      let w1 := (cs.takeWhile pyIsSpace).length
      let r1 := cs.drop w1
      match matchAlt monthNamesA r1 with
      | none => none
      | some (mname, mlen) =>
        match markerTail1 (r1.drop mlen) with
        | none => none
        | some (digs, k) => some (mname, digs, 1 + w1 + mlen + k)
    else none

/-- One regex match of Strategy A's finditer: character offsets of the
match start and end in the blob, and the two captured groups. -/
structure MarkerMatch where
  start : Nat
  stop : Nat
  month : Str
  day : Str
deriving DecidableEq

/-- Fuel-indexed scan implementing re.finditer for the marker pattern:
try a match at every position left to right; after a (never empty) match,
resume at the match end. Fuel at least the suffix length makes the fuel
bound irrelevant. -/
def scanAuxF : Nat → Str → Nat → List MarkerMatch
  | 0, _, _ => []
  | _ + 1, [], _ => []
  | fuel + 1, c :: cs, pos =>
    match tryMatchMarker (c :: cs) with
    | some (mname, digs, len) =>
      ⟨pos, pos + len, mname, digs⟩ :: scanAuxF fuel ((c :: cs).drop len) (pos + len)
    | none => scanAuxF fuel cs (pos + 1)

/-- All marker matches of a blob, in document order:
`list(re.finditer(date_pattern, full_text, re.IGNORECASE))`. -/
def scanAll (blob : Str) : List MarkerMatch :=
  scanAuxF blob.length blob 0

/-- Python s.split('\n'): split at every newline, keeping empty pieces;
the empty string splits to one empty piece. -/
def splitNl : Str → List Str
  | [] => [[]]
  | c :: cs =>
    if c = '\n' then [] :: splitNl cs
    else
      match splitNl cs with
      | [] => [[c]]
      | l :: ls => (c :: l) :: ls

/-- Python str.strip(): drop leading and trailing whitespace. -/
def pyStrip (t : Str) : Str :=
  (((t.dropWhile pyIsSpace).reverse.dropWhile pyIsSpace)).reverse

/-- The line filter of Strategy A's clean-up loop: keep a stripped line
iff it is non-empty and longer than one character
(`if para and len(para) > 1`). -/
def goodLine (p : Str) : Bool :=
  !p.isEmpty && decide (1 < p.length)

/-- Strip each split line and keep the good ones: the paragraph loop of
extract_chapters. -/
def procLines (ls : List Str) : List Str :=
  (ls.map pyStrip).filter goodLine

/-- Python '\n\n'.join. -/
def joinNl2 : List Str → Str
  | [] => []
  | [p] => p
  | p :: ps => p ++ '\n' :: '\n' :: joinNl2 ps

/-- The line list obtained by splitting a double-newline join of
newline-free pieces: the pieces interleaved with empty lines. -/
def interGaps : List Str → List Str
  | [] => []
  | [p] => [p]
  | p :: ps => p :: [] :: interGaps ps

/-- Strategy A normalization of a raw span: strip, split on newlines,
strip each line, keep non-empty lines longer than one character, join
the survivors with a double line break. -/
def normalizeText (t : Str) : Str :=
  joinNl2 (procLines (splitNl (pyStrip t)))

/-- Python day.zfill(2): left-pad the digit string with zeros to width
two. -/
def zfill2 (d : Str) : Str :=
  if 2 ≤ d.length then d else List.replicate (2 - d.length) '0' ++ d

/-- Replace the value at every binding of `k`, keeping positions. -/
def overwriteKey : Store → Str → Str → Store
  | [], _, _ => []
  | (k1, v1) :: rest, k, v =>
    if k1 = k then (k, v) :: overwriteKey rest k v
    else (k1, v1) :: overwriteKey rest k v

/-- Python dict assignment chapters[key] = value: overwrite in place if
the key is present, else append. Last write wins. -/
def putEntry (s : Store) (k v : Str) : Store :=
  if (lookupKey s k).isSome then overwriteKey s k v else s ++ [(k, v)]

/-- The date key built by Strategy A for a match: month code, dash,
zero-filled day. Meaningful whenever the month resolves (which it always
does for matches produced by the scanner). -/
def dateKeyOf (m : MarkerMatch) : Str :=
  (monthToNumber m.month).getD [] ++ '-' :: zfill2 m.day

/-- One iteration of Strategy A's match loop: skip if the month name
misses the table, normalize the span, store it iff the cleaned text is
non-empty and longer than ten characters. -/
def stepA (store : Store) (p : MarkerMatch × Str) : Store :=
  match monthToNumber p.1.month with
  | none => store
  | some mn =>
    let clean := normalizeText p.2
    if clean ≠ [] ∧ 10 < clean.length then
      putEntry store (mn ++ '-' :: zfill2 p.1.day) clean
    else store

/-- Pair each match with its raw span: from the match end to the next
match start, or to the end of the blob for the last match
(`full_text[start_pos:end_pos]`). -/
def attachSpans (blob : Str) : List MarkerMatch → List (MarkerMatch × Str)
  | [] => []
  | [m] => [(m, blob.drop m.stop)]
  | m :: m2 :: ms =>
    (m, (blob.take m2.start).drop m.stop) :: attachSpans blob (m2 :: ms)

/-- Process one flattened document blob into the store: scan for markers,
attach spans, run the match loop. -/
def processBlob (store : Store) (blob : Str) : Store :=
  (attachSpans blob (scanAll blob)).foldl stepA store

/-- extract_chapters of extract_calendar_of_wisdom.py, applied to the
flattened text blobs of the document items (the EPUB reading and HTML
flattening are external): fold every blob into one shared store. -/
def extractChapters (blobs : List Str) : Store :=
  blobs.foldl processBlob []

/-- The matched marker text of a match, as a slice of the blob. -/
def markerText (blob : Str) (m : MarkerMatch) : Str :=
  (blob.take m.stop).drop m.start

/-- In-order concatenation of marker texts and raw spans. -/
def coverAux (blob : Str) : List MarkerMatch → Str
  | [] => []
  | [m] => markerText blob m ++ blob.drop m.stop
  | m :: m2 :: ms =>
    markerText blob m ++ (blob.take m2.start).drop m.stop ++ coverAux blob (m2 :: ms)

/-- Start offset of the first match, or the default for an empty match
list. -/
def firstStart : List MarkerMatch → Nat → Nat
  | [], n => n
  | m :: _, _ => m.start

/-- Ordering invariant of a match list: every match lies between `lo`
and `hi`, starts no earlier than the previous match ended, and starts no
later than it ends. -/
def ChainLE (lo hi : Nat) : List MarkerMatch → Prop
  | [] => True
  | m :: ms => lo ≤ m.start ∧ m.start ≤ m.stop ∧ m.stop ≤ hi ∧ ChainLE m.stop hi ms

/-- The month table of extract_epub.extract_date_from_title, including
the abbreviations, in source order. -/
def monthsB : List (Str × Str) :=
  [("january".data, "01".data), ("jan".data, "01".data),
   ("february".data, "02".data), ("feb".data, "02".data),
   ("march".data, "03".data), ("mar".data, "03".data),
   ("april".data, "04".data), ("apr".data, "04".data),
   ("may".data, "05".data),
   ("june".data, "06".data), ("jun".data, "06".data),
   ("july".data, "07".data), ("jul".data, "07".data),
   ("august".data, "08".data), ("aug".data, "08".data),
   ("september".data, "09".data), ("sep".data, "09".data), ("sept".data, "09".data),
   ("october".data, "10".data), ("oct".data, "10".data),
   ("november".data, "11".data), ("nov".data, "11".data),
   ("december".data, "12".data), ("dec".data, "12".data)]

/-- The alternation order of the month group in pattern1 and pattern2 of
extract_date_from_title: the twelve full names, then the abbreviations. -/
def monthNamesB : List Str :=
  ["january".data, "february".data, "march".data, "april".data, "may".data,
   "june".data, "july".data, "august".data, "september".data, "october".data,
   "november".data, "december".data,
   "jan".data, "feb".data, "mar".data, "apr".data, "may".data, "jun".data,
   "jul".data, "aug".data, "sep".data, "sept".data, "oct".data, "nov".data,
   "dec".data]

/-- Month lookup for Strategy B: `months[match.group(...).lower()]`. -/
def monthToNumberB (m : Str) : Option Str :=
  lookupKey monthsB (m.map lowerChar)

/-- re.search: try the position matcher at every position of the text,
left to right, including the end-of-string position. -/
def searchPos {α : Type} (f : Str → Option α) : Str → Option α
  | [] => f []
  | s@(_ :: cs) =>
    match f s with
    | some r => some r
    | none => searchPos f cs

/-- Tail of pattern1 after the month group: `\s+(\d{1,2})`. The greedy
whitespace run must be maximal and non-empty, then one or two digits are
taken greedily (there is no pattern after the digit group, so no
backtracking can arise). -/
def p1Digits (r : Str) : Option Str :=
  let w := (r.takeWhile pyIsSpace).length
  if w = 0 then none
  else
    let digs := ((r.drop w).takeWhile isDigitC).take 2
    if digs.isEmpty then none else some digs

/-- Month alternation of pattern1 with its continuation: alternatives
are tried in pattern order, and an alternative whose continuation fails
is backtracked (e.g. "sep" gives way to "sept" before a non-space). -/
def p1Names : List Str → Str → Option (Str × Str)
  | [], _ => none
  | n :: rest, s =>
    if matchesCI n s then
      match p1Digits (s.drop n.length) with
      | some digs => some (s.take n.length, digs)
      | none => p1Names rest s
    else p1Names rest s

/-- Attempt pattern1 `(month)\s+(\d{1,2})` at one position; returns the
matched month slice and the day digits. -/
def p1At (s : Str) : Option (Str × Str) :=
  p1Names monthNamesB s

/-- Tail of pattern2 after the digits and optional ordinal suffix:
`\s+(month)`. The whitespace run must be maximal and non-empty; the
month group has no continuation, so the first alternative in pattern
order that matches wins. -/
def p2WsMonth (digs : Str) (r : Str) : Option (Str × Str) :=
  let w := (r.takeWhile pyIsSpace).length
  if w = 0 then none
  else
    match matchAlt monthNamesB (r.drop w) with
    | some (name, _) => some (digs, name)
    | none => none

/-- Optional ordinal suffix `(?:st|nd|rd|th)?` of pattern2: the greedy
optional group tries each suffix in pattern order and falls back to the
empty alternative, backtracking when the continuation fails. -/
def p2Suffixes : List Str → Str → Str → Option (Str × Str)
  | [], digs, r => p2WsMonth digs r
  | suf :: rest, digs, r =>
    if matchesCI suf r then
      match p2WsMonth digs (r.drop suf.length) with
      | some out => some out
      | none => p2Suffixes rest digs r
    else p2Suffixes rest digs r

/-- Pattern2 continuation after the digit group. -/
def p2Tail (digs : Str) (r : Str) : Option (Str × Str) :=
  p2Suffixes ["st".data, "nd".data, "rd".data, "th".data] digs r

/-- Attempt pattern2 `(\d{1,2})(?:st|nd|rd|th)?\s+(month)` at one
position: the greedy digit group tries two digits first, then backtracks
to one. Returns the day digits and the matched month slice. -/
def p2At (s : Str) : Option (Str × Str) :=
  let drun := (s.takeWhile isDigitC).length
  if drun = 0 then none
  else if 2 ≤ drun then
    match p2Tail (s.take 2) (s.drop 2) with
    | some out => some out
    | none => p2Tail (s.take 1) (s.drop 1)
  else p2Tail (s.take 1) (s.drop 1)

/-- Attempt pattern3 `day\s+(\d{1,3})` at one position: a case-insensitive
unanchored literal "day", maximal non-empty whitespace, then one to three
digits taken greedily. -/
def p3At (s : Str) : Option Str :=
  if matchesCI "day".data s then
    let r := s.drop 3
    let w := (r.takeWhile pyIsSpace).length
    if w = 0 then none
    else
      let digs := ((r.drop w).takeWhile isDigitC).take 3
      if digs.isEmpty then none else some digs
  else none

/-- Numeric value of a digit string, Python int(). -/
def digitsToNat (digs : Str) : Nat :=
  digs.foldl (fun a c => 10 * a + (c.toNat - 48)) 0

/-- Month lengths of the reference leap year 2024, as used by
`datetime(2024, 1, 1) + timedelta(days=n-1)` and by the audit loop of
save_chapters. -/
def daysInMonthLeap : List Nat :=
  [31, 29, 31, 30, 31, 30, 31, 31, 30, 31, 30, 31]

/-- Two-digit zero-padded decimal rendering of a number below 100,
Python's %02d / strftime %m and %d. -/
def nat2 (n : Nat) : Str :=
  if n < 10 then ['0', Char.ofNat (48 + n)]
  else [Char.ofNat (48 + n / 10), Char.ofNat (48 + n % 10)]

/-- Walk the month lengths to convert a day-of-year to its month and
day. -/
def doyAux : List Nat → Nat → Nat → Str
  | [], _, _ => []
  | len :: rest, m, n =>
    if n ≤ len then nat2 m ++ '-' :: nat2 n else doyAux rest (m + 1) (n - len)

/-- The MM-DD key of the n-th day of the reference leap year:
`(datetime(2024, 1, 1) + timedelta(days=n-1)).strftime('%m-%d')`. -/
def dayOfYearKey (n : Nat) : Str :=
  doyAux daysInMonthLeap 1 n

/-- extract_date_from_title of extract_epub.py: strip the title, then
try pattern1, pattern2 and pattern3 in order; the first matching pattern
wins. A pattern3 day number outside [1, 366] yields no date. -/
def extractDateFromTitle (title : Str) : Option Str :=
  let t := pyStrip title
  match searchPos p1At t with
  | some (name, digs) =>
    (monthToNumberB name).map (fun mc => mc ++ '-' :: zfill2 digs)
  | none =>
    match searchPos p2At t with
    | some (digs, name) =>
      (monthToNumberB name).map (fun mc => mc ++ '-' :: zfill2 digs)
    | none =>
      match searchPos p3At t with
      | some digs =>
        let n := digitsToNat digs
        if 1 ≤ n ∧ n ≤ 366 then some (dayOfYearKey n) else none
      | none => none

/-- One document unit of the EPUB as Strategy B sees it: the derived
title (heading text, falling back to the storage name), the texts of the
block-level nodes, and the flattened full text. The EPUB reading and
HTML parsing themselves are external. -/
structure DocUnit where
  title : Str
  blocks : List Str
  rawText : Str
deriving DecidableEq

/-- clean_html of extract_epub.py: stripped non-empty block-level texts
joined with double line breaks; if no block yields text, fall back to
line-splitting the flattened text with the same trim and non-empty
filter. -/
def cleanHtmlB (u : DocUnit) : Str :=
  let ps := (u.blocks.map pyStrip).filter (fun p => !p.isEmpty)
  if !ps.isEmpty then joinNl2 ps
  else joinNl2 (((splitNl u.rawText).map pyStrip).filter (fun p => !p.isEmpty))

/-- One iteration of extract_chapters of extract_epub.py: skip the unit
if its title yields no date or its cleaned content is empty, else store
the whole unit's content under the date key. -/
def stepB (store : Store) (u : DocUnit) : Store :=
  match extractDateFromTitle u.title with
  | none => store
  | some k =>
    let txt := cleanHtmlB u
    if txt.isEmpty then store else putEntry store k txt

/-- extract_chapters of extract_epub.py over the document units. -/
def extractChaptersB (units : List DocUnit) : Store :=
  units.foldl stepB []

/-- Lexicographic code-point comparison of strings, Python str <. -/
def strLtB : Str → Str → Bool
  | [], [] => false
  | [], _ :: _ => true
  | _ :: _, [] => false
  | c :: cs, d :: ds =>
    if c < d then true else if d < c then false else strLtB cs ds

/-- Ascending insertion by key into a key-sorted store. -/
def insertByKey (p : Str × Str) : Store → Store
  | [] => [p]
  | q :: qs =>
    if strLtB p.1 q.1 || p.1 == q.1 then p :: q :: qs
    else q :: insertByKey p qs

/-- dict(sorted(chapters.items())): the store with keys in ascending
lexicographic order. -/
def sortStore (s : Store) : Store :=
  s.foldr insertByKey []

/-- The 366 valid MM-DD keys of a leap year, in the order generated by
the audit loop of save_chapters. -/
def validKeys : List Str :=
  (List.range 12).foldr
    (fun mi acc =>
      ((List.range (daysInMonthLeap.getD mi 0)).map
        (fun di => nat2 (mi + 1) ++ '-' :: nat2 (di + 1))) ++ acc) []

/-- The missing-dates audit of save_chapters: the valid keys absent from
the store, in audit order. -/
def missingDates (chapters : Store) : List Str :=
  validKeys.filter (fun k => (lookupKey chapters k).isNone)

/-- Observable effects of save_chapters, in temporal order: the JSON
dump of the key-sorted store happens first, then (for a non-empty store)
the diagnostic statistics including the missing-dates audit. -/
inductive SaveEvent where
  | serialize (sorted : Store) : SaveEvent
  | audit (missing : List Str) : SaveEvent
deriving DecidableEq

/-- save_chapters of extract_calendar_of_wisdom.py as its trace of
observable effects. -/
def saveChapters (chapters : Store) : List SaveEvent :=
  SaveEvent.serialize (sortStore chapters)
    :: (if chapters.isEmpty then [] else [SaveEvent.audit (missingDates chapters)])

/-- Outcome of one extraction run: the process exit status and the
serialized store, if any. -/
structure RunOutcome where
  exitCode : Nat
  saved : Option Store
deriving DecidableEq

/-- main of extract_calendar_of_wisdom.py from the point where the
document blobs have been flattened: on zero extracted entries it prints
an error and returns normally (exit status 0) without saving; otherwise
it saves the sorted store and returns normally. -/
def calendarMain (blobs : List Str) : RunOutcome :=
  let c := extractChapters blobs
  if c.isEmpty then ⟨0, none⟩ else ⟨0, some (sortStore c)⟩

/-- main of extract_epub.py from the point where the document units have
been read: on zero extracted chapters it calls sys.exit(1); otherwise it
saves the store in discovery order and exits normally. -/
def epubMain (units : List DocUnit) : RunOutcome :=
  let c := extractChaptersB units
  if c.isEmpty then ⟨1, none⟩ else ⟨0, some c⟩

/-- The blob of spec Scenario 1. -/
def blob1 : Str := "\nJanuary 1\nHello\nworld\n\nFebruary 2\nBye\n".data

/-- A blob with one character of content before its single marker. -/
def blobPre : Str := "X\nJanuary 1\nhi".data

/-- The blob of spec Scenario 2: marker "March 5" followed only by the
one-character line "x". -/
def blobMarch : Str := "\nMarch 5\nx".data

/-- A blob whose single marker carries the calendar-invalid day
February 30, followed by content that passes normalization. -/
def blobFeb30 : Str := "\nFebruary 30\nabcdefghijklmnop\n".data

/-- A store holding one entry for every valid leap-year date. -/
def fullStore : Store := validKeys.map (fun k => (k, "full entry text".data))

/-- Two blobs whose single markers carry the same date key with
different content. -/
def blobDupA : Str := "\nJanuary 1\nfirst unit content\n".data

/-- Second blob of the duplicate-key pair. -/
def blobDupB : Str := "\nJanuary 1\nsecond unit content\n".data

/-- A document unit whose title carries a date and whose block content is
non-empty. -/
def unitJan : DocUnit := ⟨"January 1".data, ["Some long enough text.".data], [] ⟩

/-- A document unit whose title carries no date expression. -/
def unitNoDate : DocUnit := ⟨"Introduction".data, ["Front matter.".data], []⟩

set_option maxRecDepth 40000

/-- A case-insensitive literal match never outruns the text. -/
theorem matchesCI_length {p s : Str} (h : matchesCI p s = true) :
    p.length ≤ s.length := by
  induction p generalizing s with
  | nil => exact Nat.zero_le _
  | cons c cs ih =>
    cases s with
    | nil => simp [matchesCI] at h
    | cons d ds =>
      simp only [matchesCI, Bool.and_eq_true] at h
      simpa [Nat.succ_le_succ_iff] using ih h.2

/-- A successful alternation match comes from one of the alternatives. -/
theorem matchAlt_spec {names : List Str} {s : Str} {nm : Str} {l : Nat}
    (h : matchAlt names s = some (nm, l)) :
    ∃ n, n ∈ names ∧ matchesCI n s = true ∧ nm = s.take n.length ∧ l = n.length := by
  induction names with
  | nil => simp [matchAlt] at h
  | cons n rest ih =>
    by_cases hm : matchesCI n s = true
    · simp only [matchAlt, hm, if_true, Option.some.injEq, Prod.mk.injEq] at h
      exact ⟨n, by simp, hm, h.1.symm, h.2.symm⟩
    · simp only [matchAlt, hm, if_false, Bool.false_eq_true] at h
      obtain ⟨n2, hmem, h1, h2, h3⟩ := ih h
      exact ⟨n2, by simp [hmem], h1, h2, h3⟩

/-- The whitespace tail scanner stays inside the text. -/
theorem lastNlAux_lt : ∀ (s : Str) (i : Nat) (best : Option Nat) (j : Nat),
    (∀ b, best = some b → b < i) → lastNlAux s i best = some j → j < i + s.length := by
  intro s
  induction s with
  | nil =>
    intro i best j hb h
    simp only [lastNlAux] at h
    simpa using (hb j h)
  | cons c cs ih =>
    intro i best j hb h
    simp only [lastNlAux] at h
    by_cases hc : pyIsSpace c = true
    · simp only [hc, if_true] at h
      have hstep : ∀ b, (if (c == '\n') = true then some i else best) = some b → b < i + 1 := by
        intro b hbb
        by_cases hnl : (c == '\n') = true
        · simp only [hnl, if_true, Option.some.injEq] at hbb
          omega
        · simp only [hnl, if_false, Bool.false_eq_true] at hbb
          exact Nat.lt_succ_of_lt (hb b hbb)
      have := ih _ _ _ hstep h
      simpa [Nat.add_comm, Nat.add_assoc, Nat.add_left_comm] using this
    · simp only [hc, if_false, Bool.false_eq_true] at h
      have := hb j h
      omega

/-- The tail `\s*\n` consumes at least one and at most all characters. -/
theorem lastNlRun_le {s : Str} {t : Nat} (h : lastNlRun s = some t) :
    1 ≤ t ∧ t ≤ s.length := by
  unfold lastNlRun at h
  match hx : lastNlAux s 0 none with
  | none =>
    rw [hx] at h
    have h2 : (none : Option Nat) = some t := h
    cases h2
  | some j =>
    rw [hx] at h
    have h2 : some (j + 1) = some t := h
    have hj : j + 1 = t := by injection h2
    have := lastNlAux_lt s 0 none j (by intro b hb; cases hb) hx
    omega

/-- The digit-and-newline tail consumes at least one and at most all
characters. -/
theorem markerTail2_le {r : Str} {d : Str} {k : Nat}
    (h : markerTail2 r = some (d, k)) : 1 ≤ k ∧ k ≤ r.length := by
  simp only [markerTail2] at h
  split at h
  next => exact Option.noConfusion h
  next =>
    split at h
    next => exact Option.noConfusion h
    next t hnl =>
      have hinj : ((r.takeWhile isDigitC),
          (r.takeWhile isDigitC).length + t) = (d, k) := by injection h
      have hk : (r.takeWhile isDigitC).length + t = k := congrArg Prod.snd hinj
      have ht := lastNlRun_le hnl
      rw [List.length_drop] at ht
      have hdl : (r.takeWhile isDigitC).length ≤ r.length :=
        (List.takeWhile_sublist _).length_le
      omega

/-- The whitespace-digits-newline tail consumes at least one and at most
all characters. -/
theorem markerTail1_le {r : Str} {d : Str} {k : Nat}
    (h : markerTail1 r = some (d, k)) : 1 ≤ k ∧ k ≤ r.length := by
  simp only [markerTail1] at h
  split at h
  next => exact Option.noConfusion h
  next hz =>
    split at h
    next => exact Option.noConfusion h
    next digs k2 h2 =>
      have hinj : (digs, (r.takeWhile pyIsSpace).length + k2) = (d, k) := by injection h
      have hk : (r.takeWhile pyIsSpace).length + k2 = k := congrArg Prod.snd hinj
      have ht := markerTail2_le h2
      rw [List.length_drop] at ht
      have hw : (r.takeWhile pyIsSpace).length ≤ r.length :=
        (List.takeWhile_sublist _).length_le
      omega

/-- A marker match consumes at least one and at most all characters of
the suffix it matched at. -/
theorem tryMatchMarker_len {s : Str} {mn d : Str} {len : Nat}
    (h : tryMatchMarker s = some (mn, d, len)) : 1 ≤ len ∧ len ≤ s.length := by
  match s with
  | [] => simp [tryMatchMarker] at h
  | c :: cs =>
    simp only [tryMatchMarker] at h
    split at h
    next hc =>
      split at h
      next => exact Option.noConfusion h
      next mname mlen hma =>
        split at h
        next => exact Option.noConfusion h
        next digs k h1 =>
          have hinj : (mname, digs, 1 + (cs.takeWhile pyIsSpace).length + mlen + k)
              = (mn, d, len) := by injection h
          have hlen : 1 + (cs.takeWhile pyIsSpace).length + mlen + k = len := by
            have := congrArg (fun p => p.2.2) hinj
            simpa using this
          have hk := markerTail1_le h1
          rw [List.length_drop, List.length_drop] at hk
          have hw1 : (cs.takeWhile pyIsSpace).length ≤ cs.length :=
            (List.takeWhile_sublist _).length_le
          obtain ⟨n, -, hci, -, hml⟩ := matchAlt_spec hma
          have hmlen : mlen ≤ (cs.drop (cs.takeWhile pyIsSpace).length).length := by
            rw [hml]; exact matchesCI_length hci
          rw [List.length_drop] at hmlen
          simp only [List.length_cons]
          omega
    next => exact absurd h (by simp)

/-- Weakening the lower bound of the chain invariant. -/
theorem ChainLE_mono_lo {lo lo2 hi : Nat} {ms : List MarkerMatch}
    (hle : lo2 ≤ lo) (h : ChainLE lo hi ms) : ChainLE lo2 hi ms := by
  cases ms with
  | nil => trivial
  | cons m rest =>
    obtain ⟨h1, h2, h3, h4⟩ := h
    exact ⟨Nat.le_trans hle h1, h2, h3, h4⟩

/-- The scanner's matches are ordered, non-overlapping and bounded by the
scanned suffix. -/
theorem scan_chain : ∀ (fuel : Nat) (s : Str) (pos : Nat), s.length ≤ fuel →
    ChainLE pos (pos + s.length) (scanAuxF fuel s pos) := by
  intro fuel
  induction fuel with
  | zero => intro s pos _; trivial
  | succ f ih =>
    intro s pos hf
    match s with
    | [] => trivial
    | c :: cs =>
      simp only [scanAuxF]
      match htm : tryMatchMarker (c :: cs) with
      | some (mname, digs, len) =>
        simp only
        have hlen := tryMatchMarker_len htm
        have hfd : ((c :: cs).drop len).length ≤ f := by
          rw [List.length_drop]
          simp only [List.length_cons] at hf hlen ⊢
          omega
        have hih := ih ((c :: cs).drop len) (pos + len) hfd
        rw [List.length_drop] at hih
        have heq : pos + len + ((c :: cs).length - len) = pos + (c :: cs).length := by
          simp only [List.length_cons] at hlen ⊢
          omega
        rw [heq] at hih
        exact ⟨Nat.le_refl _, Nat.le_add_right _ _,
          by show pos + len ≤ pos + (c :: cs).length
             simp only [List.length_cons] at hlen ⊢
             omega,
          hih⟩
      | none =>
        simp only
        have hfd : cs.length ≤ f := by
          simp only [List.length_cons] at hf
          omega
        have hih := ih cs (pos + 1) hfd
        have heq : pos + 1 + cs.length = pos + (c :: cs).length := by
          simp only [List.length_cons]
          omega
        rw [heq] at hih
        exact ChainLE_mono_lo (Nat.le_succ pos) hih

/-- Splitting a suffix of a list at a later offset. -/
theorem slice_split {α : Type} (l : List α) {a b : Nat} (h : a ≤ b) :
    l.drop a = (l.take b).drop a ++ l.drop b := by
  have h1 : (l.take b).drop a = (l.drop a).take (b - a) := by
    rw [List.drop_take]
  have h2 : l.drop b = (l.drop a).drop (b - a) := by
    rw [List.drop_drop]
    congr 1
    omega
  rw [h1, h2, List.take_append_drop]

/-- Coverage of the blob from the first match start onward, for any
chain-ordered match list. -/
theorem drop_eq_cover (blob : Str) :
    ∀ (rest : List MarkerMatch) (m : MarkerMatch),
      m.start ≤ m.stop → m.stop ≤ blob.length →
      ChainLE m.stop blob.length rest →
      blob.drop m.start = coverAux blob (m :: rest) := by
  intro rest
  induction rest with
  | nil =>
    intro m h1 _ _
    simp only [coverAux, markerText]
    exact slice_split blob h1
  | cons m2 rest2 ih =>
    intro m h1 h2 hch
    obtain ⟨hc1, hc2, hc3, hc4⟩ := hch
    simp only [coverAux, markerText]
    rw [List.append_assoc, ← ih m2 hc2 hc3 hc4, ← slice_split blob hc1,
      ← slice_split blob h1]

/-- Every blob is its prefix before the first marker followed by the
in-order concatenation of marker texts and raw spans. -/
theorem scan_reconstruct (blob : Str) :
    blob = blob.take (firstStart (scanAll blob) blob.length)
      ++ coverAux blob (scanAll blob) := by
  have hch : ChainLE 0 blob.length (scanAll blob) := by
    have := scan_chain blob.length blob 0 (Nat.le_refl _)
    simpa using this
  match hms : scanAll blob with
  | [] =>
    simp [firstStart, coverAux, List.take_length]
  | m :: rest =>
    rw [hms] at hch
    obtain ⟨-, h2, h3, h4⟩ := hch
    simp only [firstStart]
    have := drop_eq_cover blob rest m h2 h3 h4
    rw [← this, List.take_append_drop]

/-- One raw span is attached to every match. -/
theorem attachSpans_length (blob : Str) :
    ∀ ms : List MarkerMatch, (attachSpans blob ms).length = ms.length := by
  intro ms
  induction ms with
  | nil => rfl
  | cons m rest ih =>
    cases rest with
    | nil => rfl
    | cons m2 rest2 =>
      simp only [attachSpans, List.length_cons] at ih ⊢
      omega

/-- The match of an attached pair comes from the match list. -/
theorem attachSpans_mem {blob : Str} {m : MarkerMatch} {sp : Str} :
    ∀ {ms : List MarkerMatch}, (m, sp) ∈ attachSpans blob ms → m ∈ ms := by
  intro ms
  induction ms with
  | nil => intro h; simp [attachSpans] at h
  | cons m1 rest ih =>
    cases rest with
    | nil =>
      intro h
      simp only [attachSpans, List.mem_singleton, Prod.mk.injEq] at h
      simp [h.1]
    | cons m2 rest2 =>
      intro h
      simp only [attachSpans, List.mem_cons, Prod.mk.injEq] at h
      rcases h with ⟨h1, -⟩ | h2
      · simp [h1]
      · exact List.mem_cons_of_mem _ (ih h2)

/-- A case-insensitive match lower-cases the matched slice to the
lower-case of the pattern. -/
theorem matchesCI_take_lower {p s : Str} (h : matchesCI p s = true) :
    (s.take p.length).map lowerChar = p.map lowerChar := by
  induction p generalizing s with
  | nil => simp
  | cons c cs ih =>
    cases s with
    | nil => simp [matchesCI] at h
    | cons d ds =>
      simp only [matchesCI, Bool.and_eq_true, beq_iff_eq] at h
      simp only [List.length_cons, List.take_succ_cons, List.map_cons]
      rw [ih h.2, h.1]

/-- Every Strategy A month name, lower-cased, resolves in the month
table. -/
theorem monthNamesA_resolve :
    ∀ n ∈ monthNamesA, (lookupKey monthsA (n.map lowerChar)).isSome = true := by
  decide

/-- The month slice captured by a marker match always resolves in
month_to_number's table. -/
theorem tryMatchMarker_month {s : Str} {mn d : Str} {len : Nat}
    (h : tryMatchMarker s = some (mn, d, len)) :
    (monthToNumber mn).isSome = true := by
  match s with
  | [] => simp [tryMatchMarker] at h
  | c :: cs =>
    simp only [tryMatchMarker] at h
    split at h
    next hc =>
      split at h
      next => exact Option.noConfusion h
      next mname mlen hma =>
        split at h
        next => exact Option.noConfusion h
        next digs k h1 =>
          have hinj : (mname, digs, 1 + (cs.takeWhile pyIsSpace).length + mlen + k)
              = (mn, d, len) := by injection h
          have hmn : mname = mn := congrArg Prod.fst hinj
          obtain ⟨n, hmem, hci, htake, -⟩ := matchAlt_spec hma
          rw [monthToNumber, ← hmn, htake, matchesCI_take_lower hci,
            ← monthToNumber]
          have : (lookupKey monthsA (n.map lowerChar)).isSome = true :=
            monthNamesA_resolve n hmem
          rw [monthToNumber]
          exact this
    next => exact absurd h (by simp)

/-- Every match produced by the scanner carries a month that resolves. -/
theorem scan_month : ∀ (fuel : Nat) (s : Str) (pos : Nat) (m : MarkerMatch),
    m ∈ scanAuxF fuel s pos → (monthToNumber m.month).isSome = true := by
  intro fuel
  induction fuel with
  | zero => intro s pos m h; simp [scanAuxF] at h
  | succ f ih =>
    intro s pos m h
    match s with
    | [] => simp [scanAuxF] at h
    | c :: cs =>
      simp only [scanAuxF] at h
      split at h
      next mname digs len htm =>
        rcases List.mem_cons.mp h with h1 | h2
        · rw [h1]
          exact tryMatchMarker_month htm
        · exact ih _ _ _ h2
      next => exact ih _ _ _ h

/-- A key present among the store's keys looks up successfully. -/
theorem lookupKey_isSome_of_mem_keys {s : Store} {k : Str}
    (h : k ∈ s.map Prod.fst) : (lookupKey s k).isSome = true := by
  induction s with
  | nil => simp at h
  | cons p rest ih =>
    simp only [List.map_cons, List.mem_cons] at h
    match p with
    | (k1, v1) =>
      by_cases he : k1 = k
      · simp [lookupKey, he]
      · simp only [lookupKey, he, if_false]
        rcases h with h1 | h2
        · exact absurd h1.symm he
        · exact ih h2

/-- Overwriting every binding of a present key makes the key look up the
new value. -/
theorem lookup_map_overwrite {s : Store} {k v : Str}
    (h : (lookupKey s k).isSome = true) :
    lookupKey (overwriteKey s k v) k = some v := by
  induction s with
  | nil => simp [lookupKey] at h
  | cons p rest ih =>
    match p with
    | (k1, v1) =>
      by_cases he : k1 = k
      · simp only [overwriteKey, he, if_true, lookupKey, if_pos rfl]
      · simp only [lookupKey, he, if_false] at h
        simp only [overwriteKey, he, if_false, lookupKey]
        exact ih h

/-- Appending a fresh binding makes the key look up the new value. -/
theorem lookup_append_fresh {s : Store} {k v : Str}
    (h : (lookupKey s k).isSome = false) :
    lookupKey (s ++ [(k, v)]) k = some v := by
  induction s with
  | nil => simp [lookupKey]
  | cons p rest ih =>
    match p with
    | (k1, v1) =>
      by_cases he : k1 = k
      · simp [lookupKey, he] at h
      · simp only [lookupKey, he, if_false] at h
        simp only [List.cons_append, lookupKey, he, if_false]
        exact ih h

/-- put is observed: after putEntry the key maps to the written value. -/
theorem lookup_put_self (s : Store) (k v : Str) :
    lookupKey (putEntry s k v) k = some v := by
  unfold putEntry
  by_cases h : (lookupKey s k).isSome = true
  · simp only [h, if_true]
    exact lookup_map_overwrite h
  · simp only [h, if_false]
    exact lookup_append_fresh (by simp at h; simp [h])

/-- Splitting never yields an empty line list. -/
theorem splitNl_ne_nil (s : Str) : splitNl s ≠ [] := by
  induction s with
  | nil => simp [splitNl]
  | cons c cs ih =>
    simp only [splitNl]
    by_cases hc : c = '\n'
    · simp [hc]
    · simp only [hc, if_false]
      match h : splitNl cs with
      | [] => exact absurd h ih
      | l :: ls => simp

/-- No split line contains a newline. -/
theorem splitNl_no_nl {s p : Str} (h : p ∈ splitNl s) : '\n' ∉ p := by
  induction s generalizing p with
  | nil =>
    simp only [splitNl, List.mem_singleton] at h
    simp [h]
  | cons c cs ih =>
    simp only [splitNl] at h
    by_cases hc : c = '\n'
    · simp only [hc, if_true, List.mem_cons] at h
      rcases h with h1 | h2
      · simp [h1]
      · exact ih h2
    · simp only [hc, if_false] at h
      match hs : splitNl cs with
      | [] => exact absurd hs (splitNl_ne_nil cs)
      | l :: ls =>
        rw [hs] at h
        rcases List.mem_cons.mp h with h1 | h2
        · subst h1
          intro hmem
          rcases List.mem_cons.mp hmem with h3 | h4
          · exact hc h3.symm
          · exact ih (by rw [hs]; exact List.mem_cons_self l ls) h4
        · exact ih (by rw [hs]; exact List.mem_cons_of_mem l h2)

/-- A newline-free string splits to itself alone. -/
theorem splitNl_of_no_nl {a : Str} (h : '\n' ∉ a) : splitNl a = [a] := by
  induction a with
  | nil => rfl
  | cons c cs ih =>
    have hc : ¬(c = '\n') := fun he => h (by rw [he]; exact List.mem_cons_self _ _)
    have hcs : '\n' ∉ cs := fun hm => h (List.mem_cons_of_mem c hm)
    simp only [splitNl, hc, if_false, ih hcs]

/-- Splitting past a newline-free chunk followed by a newline peels the
chunk off. -/
theorem splitNl_append_nl {a t : Str} (h : '\n' ∉ a) :
    splitNl (a ++ '\n' :: t) = a :: splitNl t := by
  induction a with
  | nil => simp [splitNl]
  | cons c cs ih =>
    have hc : ¬(c = '\n') := fun he => h (by rw [he]; exact List.mem_cons_self _ _)
    have hcs : '\n' ∉ cs := fun hm => h (List.mem_cons_of_mem c hm)
    have ih2 := ih hcs
    show splitNl (c :: (cs ++ '\n' :: t)) = (c :: cs) :: splitNl t
    simp only [splitNl, hc, if_false, ih2]

/-- A string whose whitespace trimming is a no-op on both ends strips to
itself. -/
theorem strip_noop2 {l : Str} (h1 : l.dropWhile pyIsSpace = l)
    (h2 : l.reverse.dropWhile pyIsSpace = l.reverse) : pyStrip l = l := by
  unfold pyStrip
  rw [h1, h2, List.reverse_reverse]

/-- Stripping only removes characters. -/
theorem mem_pyStrip {c : Char} {t : Str} (h : c ∈ pyStrip t) : c ∈ t := by
  unfold pyStrip at h
  rw [List.mem_reverse] at h
  have h2 := (@List.dropWhile_sublist Char
    (t.dropWhile pyIsSpace).reverse pyIsSpace).subset h
  rw [List.mem_reverse] at h2
  exact (@List.dropWhile_sublist Char t pyIsSpace).subset h2

/-- A list whose head survives the filter is unchanged by dropWhile. -/
theorem dropWhile_noop_of_head {l : Str} {c : Char}
    (hh : l.head? = some c) (hc : pyIsSpace c = false) :
    l.dropWhile pyIsSpace = l := by
  cases l with
  | nil => rfl
  | cons d ds =>
    have : d = c := by simpa using hh
    subst this
    simp [List.dropWhile_cons, hc]

/-- Heads of prefixes agree. -/
theorem head?_of_prefix {l1 l2 : Str} {c : Char}
    (h : l1 <+: l2) (hh : l1.head? = some c) : l2.head? = some c := by
  obtain ⟨t, rfl⟩ := h
  cases l1 with
  | nil => simp at hh
  | cons d ds => simpa using hh

/-- A stripped string is already trimmed on both ends. -/
theorem stripped_dropWhile {p : Str} (h : pyStrip p = p) :
    p.dropWhile pyIsSpace = p ∧ p.reverse.dropWhile pyIsSpace = p.reverse := by
  have h1 : ((p.dropWhile pyIsSpace).reverse.dropWhile pyIsSpace).length
      ≤ (p.dropWhile pyIsSpace).length := by
    have := (@List.dropWhile_sublist Char
      (p.dropWhile pyIsSpace).reverse pyIsSpace).length_le
    rwa [List.length_reverse] at this
  have h2 : (p.dropWhile pyIsSpace).length ≤ p.length :=
    (List.dropWhile_sublist pyIsSpace).length_le
  have h3 : ((p.dropWhile pyIsSpace).reverse.dropWhile pyIsSpace).reverse = p := h
  have h4 : ((p.dropWhile pyIsSpace).reverse.dropWhile pyIsSpace).length = p.length := by
    have := congrArg List.length h3
    rwa [List.length_reverse] at this
  have hre : p.dropWhile pyIsSpace = p :=
    (List.dropWhile_suffix pyIsSpace).eq_of_length (by omega)
  refine ⟨hre, ?_⟩
  have h5 : ((p.dropWhile pyIsSpace).reverse.dropWhile pyIsSpace).length
      = (p.dropWhile pyIsSpace).reverse.length := by
    rw [List.length_reverse]
    omega
  have h6 := (List.dropWhile_suffix pyIsSpace).eq_of_length h5
  rw [hre] at h6
  exact h6

/-- A trimmed non-empty list starts with a non-whitespace character. -/
theorem head_not_space {l : Str} {c : Char}
    (h : l.dropWhile pyIsSpace = l) (hh : l.head? = some c) :
    pyIsSpace c = false := by
  cases l with
  | nil => simp at hh
  | cons d ds =>
    have hd : d = c := by simpa using hh
    subst hd
    by_cases hc : pyIsSpace d = true
    · rw [List.dropWhile_cons, if_pos hc] at h
      have := congrArg List.length h
      have hle : (ds.dropWhile pyIsSpace).length ≤ ds.length :=
        (List.dropWhile_sublist pyIsSpace).length_le
      simp only [List.length_cons] at this
      omega
    · simpa using hc

/-- Stripping is idempotent. -/
theorem pyStrip_idem (q : Str) : pyStrip (pyStrip q) = pyStrip q := by
  set r := q.dropWhile pyIsSpace with hr
  set d := r.reverse.dropWhile pyIsSpace with hd
  have hsq : pyStrip q = d.reverse := rfl
  rw [hsq]
  apply strip_noop2
  · match hrev : d.reverse with
    | [] => rfl
    | c :: x =>
      have hpre : d.reverse <+: r := by
        rw [← List.reverse_reverse r]
        exact (List.dropWhile_suffix pyIsSpace).reverse
      have hhead : r.head? = some c := by
        apply head?_of_prefix hpre
        rw [hrev]
        rfl
      have hrdrop : r.dropWhile pyIsSpace = r := by
        rw [hr]
        exact List.dropWhile_idempotent pyIsSpace q
      have hc : pyIsSpace c = false := head_not_space hrdrop hhead
      rw [← hrev]
      exact dropWhile_noop_of_head (by rw [hrev]; rfl) hc
  · rw [List.reverse_reverse, hd]
    exact List.dropWhile_idempotent pyIsSpace r.reverse

/-- A string with non-whitespace first and last characters strips to
itself. -/
theorem strip_noop_ends {l : Str}
    (h1 : ∀ c, l.head? = some c → pyIsSpace c = false)
    (h2 : ∀ c, l.getLast? = some c → pyIsSpace c = false) :
    pyStrip l = l := by
  apply strip_noop2
  · match hl : l.head? with
    | none =>
      have : l = [] := by cases l with
        | nil => rfl
        | cons a as => simp at hl
      rw [this]
      rfl
    | some c => exact dropWhile_noop_of_head hl (h1 c hl)
  · match hl : l.reverse.head? with
    | none =>
      have : l.reverse = [] := by cases hrv : l.reverse with
        | nil => rfl
        | cons a as => rw [hrv] at hl; simp at hl
      rw [this]
      rfl
    | some c =>
      have hlast : l.getLast? = some c := by
        rw [List.getLast?_eq_head?_reverse]
        exact hl
      exact dropWhile_noop_of_head hl (h2 c hlast)

/-- The first character of a double-newline join is the first character
of its first piece. -/
theorem head?_joinNl2 {p : Str} {ps : List Str} (hp : p ≠ []) :
    (joinNl2 (p :: ps)).head? = p.head? := by
  cases ps with
  | nil => rfl
  | cons q qs =>
    simp only [joinNl2]
    match p, hp with
    | c :: cs, _ => rfl

/-- The last character of a double-newline join is the last character of
one of its pieces. -/
theorem getLast?_joinNl2 : ∀ (ps : List Str) (p : Str), p ≠ [] →
    (∀ x ∈ ps, x ≠ []) →
    ∃ q, q ∈ p :: ps ∧ (joinNl2 (p :: ps)).getLast? = q.getLast? := by
  intro ps
  induction ps with
  | nil =>
    intro p hp _
    exact ⟨p, by simp, rfl⟩
  | cons q qs ih =>
    intro p hp hall
    have hq : q ≠ [] := hall q (by simp)
    have hqs : ∀ x ∈ qs, x ≠ [] := fun x hx => hall x (List.mem_cons_of_mem q hx)
    obtain ⟨r, hr1, hr2⟩ := ih q hq hqs
    refine ⟨r, List.mem_cons_of_mem p hr1, ?_⟩
    have hjoin : joinNl2 (p :: q :: qs) = p ++ '\n' :: '\n' :: joinNl2 (q :: qs) := rfl
    rw [hjoin, List.getLast?_eq_head?_reverse, List.reverse_append]
    have hne : (joinNl2 (q :: qs)) ≠ [] := by
      intro hcon
      have : (joinNl2 (q :: qs)).head? = q.head? := head?_joinNl2 hq
      rw [hcon] at this
      match q, hq, this with
      | c :: cs, _, h => simp at h
    match hrv : ('\n' :: '\n' :: joinNl2 (q :: qs)).reverse with
    | [] => simp at hrv
    | c :: x =>
      simp only [List.head?_append, hrv]
      have hch : ('\n' :: '\n' :: joinNl2 (q :: qs)).reverse.head? = some c := by
        rw [hrv]; rfl
      have hh2 : (joinNl2 (q :: qs)).getLast? = some c := by
        rw [List.getLast?_eq_head?_reverse] at hr2 ⊢
        have : ('\n' :: '\n' :: joinNl2 (q :: qs)).reverse
            = (joinNl2 (q :: qs)).reverse ++ ['\n', '\n'] := by
          simp
        rw [this] at hch
        match hjr : (joinNl2 (q :: qs)).reverse with
        | [] => exact absurd (by rw [← List.reverse_reverse (joinNl2 (q :: qs)), hjr]; rfl) hne
        | d :: y =>
          rw [hjr] at hch
          simp only [List.cons_append, List.head?_cons, Option.some.injEq] at hch
          simp [hch]
      rw [hr2] at hh2
      simp [hh2]

/-- Splitting a double-newline join of newline-free pieces yields the
pieces interleaved with empty lines. -/
theorem splitNl_joinNl2 : ∀ (ps : List Str) (p : Str), (∀ x ∈ p :: ps, '\n' ∉ x) →
    splitNl (joinNl2 (p :: ps)) = interGaps (p :: ps) := by
  intro ps
  induction ps with
  | nil =>
    intro p hall
    simp only [joinNl2, interGaps]
    exact splitNl_of_no_nl (hall p (by simp))
  | cons q qs ih =>
    intro p hall
    have hjoin : joinNl2 (p :: q :: qs) = p ++ '\n' :: '\n' :: joinNl2 (q :: qs) := rfl
    have hgaps : interGaps (p :: q :: qs) = p :: [] :: interGaps (q :: qs) := rfl
    rw [hjoin, hgaps, splitNl_append_nl (hall p (by simp))]
    have hsplit2 : splitNl ('\n' :: joinNl2 (q :: qs)) = [] :: splitNl (joinNl2 (q :: qs)) := by
      simp [splitNl]
    rw [hsplit2, ih q (fun x hx => hall x (List.mem_cons_of_mem p hx))]

/-- Re-processing the interleaved lines of already-clean pieces gives
back the pieces. -/
theorem procLines_interGaps : ∀ (ps : List Str),
    (∀ x ∈ ps, pyStrip x = x ∧ goodLine x = true) →
    procLines (interGaps ps) = ps := by
  intro ps
  induction ps with
  | nil => intro _; rfl
  | cons p rest ih =>
    intro hall
    obtain ⟨hs, hg⟩ := hall p (by simp)
    have hrest : ∀ x ∈ rest, pyStrip x = x ∧ goodLine x = true :=
      fun x hx => hall x (List.mem_cons_of_mem p hx)
    cases rest with
    | nil =>
      simp only [interGaps, procLines, List.map_cons, List.map_nil, hs]
      simp [List.filter, hg]
    | cons q qs =>
      have hgaps : interGaps (p :: q :: qs) = p :: [] :: interGaps (q :: qs) := rfl
      rw [hgaps]
      have ihq := ih hrest
      simp only [procLines, List.map_cons, hs, List.filter] at ihq ⊢
      rw [hg]
      simp only [show pyStrip [] = [] from rfl, show goodLine [] = false from rfl]
      rw [ihq]

/-- Stripping a double-newline join of clean pieces is a no-op. -/
theorem pyStrip_joinNl2 {P : List Str}
    (hne : ∀ x ∈ P, x ≠ []) (hst : ∀ x ∈ P, pyStrip x = x) :
    pyStrip (joinNl2 P) = joinNl2 P := by
  cases P with
  | nil => rfl
  | cons p ps =>
    apply strip_noop_ends
    · intro c hc
      rw [head?_joinNl2 (hne p (by simp))] at hc
      have hdw := (stripped_dropWhile (hst p (by simp))).1
      exact head_not_space hdw hc
    · intro c hc
      obtain ⟨q, hq, heq⟩ := getLast?_joinNl2 ps p (hne p (by simp))
        (fun x hx => hne x (List.mem_cons_of_mem p hx))
      rw [heq] at hc
      have hdw := (stripped_dropWhile (hst q hq)).2
      rw [List.getLast?_eq_head?_reverse] at hc
      exact head_not_space hdw hc

/-- Normalizing a join of already-clean pieces gives it back. -/
theorem normalize_of_clean {P : List Str}
    (h : ∀ p ∈ P, pyStrip p = p ∧ goodLine p = true ∧ '\n' ∉ p ∧ p ≠ []) :
    normalizeText (joinNl2 P) = joinNl2 P := by
  cases P with
  | nil => rfl
  | cons p ps =>
    unfold normalizeText
    rw [pyStrip_joinNl2 (fun x hx => (h x hx).2.2.2) (fun x hx => (h x hx).1),
      splitNl_joinNl2 ps p (fun x hx => (h x hx).2.2.1),
      procLines_interGaps (p :: ps) (fun x hx => ⟨(h x hx).1, (h x hx).2.1⟩)]

/-- The lines surviving normalization are clean. -/
theorem procLines_clean (t : Str) :
    ∀ p ∈ procLines (splitNl (pyStrip t)),
      pyStrip p = p ∧ goodLine p = true ∧ '\n' ∉ p ∧ p ≠ [] := by
  intro p hp
  simp only [procLines, List.mem_filter, List.mem_map] at hp
  obtain ⟨⟨q, hq, rfl⟩, hg⟩ := hp
  refine ⟨pyStrip_idem q, hg, ?_, ?_⟩
  · intro hmem
    exact splitNl_no_nl hq (mem_pyStrip hmem)
  · intro hnil
    rw [hnil] at hg
    simp [goodLine] at hg

/-- C1: contrary to the claim, segmenting and normalizing the Scenario 1
blob does not produce an entry for "02-02": the span "Bye" has cleaned
length 3, which fails the greater-than-ten threshold, so the claimed
entry map is not produced. -/
theorem c1_counterexample :
    lookupKey (extractChapters [blob1]) "02-02".data = none
    ∧ extractChapters [blob1] ≠
        [("01-01".data, "Hello\n\nworld".data), ("02-02".data, "Bye".data)] :=
  ⟨by decide, by decide⟩

/-- C1 (amended): segmenting and normalizing the Scenario 1 blob
produces exactly the entry map mapping "01-01" to "Hello\n\nworld"; the
"02-02" span "Bye" is rejected by the greater-than-ten-characters
threshold. -/
theorem c1_entries :
    extractChapters [blob1] = [("01-01".data, "Hello\n\nworld".data)] := by
  decide

/-- C2: contrary to the claim, the in-order concatenation of markers and
spans does not reconstruct the entire original blob when content
precedes the first marker: for blobPre the scan finds one marker but the
concatenation drops the leading "X". -/
theorem c2_counterexample :
    (scanAll blobPre).length = 1
    ∧ coverAux blobPre (scanAll blobPre) ≠ blobPre :=
  ⟨by decide, by decide⟩

/-- C2 (amended): for every blob, exactly as many raw spans are produced
as markers found, each span running from its marker's match end to the
next marker's match start (or to end-of-blob for the last, as encoded by
attachSpans and coverAux); matches are ordered and non-overlapping, and
the prefix of the blob before the first marker followed by the in-order
concatenation of markers and spans reconstructs the entire blob with no
gaps or overlaps. -/
theorem c2_reconstruction (blob : Str) :
    (attachSpans blob (scanAll blob)).length = (scanAll blob).length
    ∧ ChainLE 0 blob.length (scanAll blob)
    ∧ blob = blob.take (firstStart (scanAll blob) blob.length)
        ++ coverAux blob (scanAll blob) := by
  refine ⟨attachSpans_length blob _, ?_, scan_reconstruct blob⟩
  have := scan_chain blob.length blob 0 (Nat.le_refl _)
  simpa using this

/-- C3: a raw span attached to a scanner match is stored if and only if
its normalized text is longer than ten characters (the month of a
scanner match always resolves, and a cleaned text longer than ten
characters is in particular non-empty); and the Scenario 2 blob, whose
marker "March 5" is followed only by the one-character line "x", stores
no entry. -/
theorem c3_stored_iff :
    (∀ (blob : Str) (store : Store) (m : MarkerMatch) (span : Str),
      (m, span) ∈ attachSpans blob (scanAll blob) →
      stepA store (m, span) =
        if 10 < (normalizeText span).length then
          putEntry store (dateKeyOf m) (normalizeText span)
        else store)
    ∧ extractChapters [blobMarch] = [] := by
  constructor
  · intro blob store m span hmem
    have hm : m ∈ scanAll blob := attachSpans_mem hmem
    have hsome : (monthToNumber m.month).isSome = true := scan_month _ _ _ _ hm
    match hmn : monthToNumber m.month with
    | none => rw [hmn] at hsome; simp at hsome
    | some mn =>
      simp only [stepA, hmn]
      have hkey : dateKeyOf m = mn ++ '-' :: zfill2 m.day := by
        simp [dateKeyOf, hmn]
      rw [hkey]
      by_cases hlen : 10 < (normalizeText span).length
      · rw [if_pos hlen, if_pos]
        refine ⟨?_, hlen⟩
        intro h0
        rw [h0] at hlen
        simp at hlen
      · rw [if_neg hlen, if_neg]
        intro hand
        exact hlen hand.2
  · decide

/-- C3 witness: the first span of the Scenario 1 blob instantiates the
membership hypothesis, and its step stores the normalized span. -/
theorem c3_witness :
    ((⟨0, 11, "January".data, "1".data⟩, "Hello\nworld".data) : MarkerMatch × Str)
        ∈ attachSpans blob1 (scanAll blob1)
    ∧ stepA [] (⟨0, 11, "January".data, "1".data⟩, "Hello\nworld".data) =
        (if 10 < (normalizeText "Hello\nworld".data).length then
          putEntry [] (dateKeyOf ⟨0, 11, "January".data, "1".data⟩)
            (normalizeText "Hello\nworld".data)
        else []) :=
  ⟨by decide, c3_stored_iff.1 blob1 [] _ _ (by decide)⟩

/-- C5: the segmenter performs no month-relative day validation: the
syntactically well-formed marker "February 30", followed by content
passing normalization, produces an entry stored under the calendar-
invalid date key "02-30" unchanged. -/
theorem c5_no_day_validation :
    extractChapters [blobFeb30] = [("02-30".data, "abcdefghijklmnop".data)]
    ∧ lookupKey (extractChapters [blobFeb30]) "02-30".data
        = some "abcdefghijklmnop".data :=
  ⟨by decide, by decide⟩

/-- C7: Strategy A normalization is idempotent: re-normalizing any
normalized text (in particular the joined text of every Entry the
normalizer produces) yields it unchanged, so the length-threshold
verdict is unchanged as well. -/
theorem c7_normalize_idempotent (t : Str) :
    normalizeText (normalizeText t) = normalizeText t := by
  show normalizeText (joinNl2 (procLines (splitNl (pyStrip t)))) = normalizeText t
  rw [normalize_of_clean (procLines_clean t)]
  rfl

/-- C8: storing entries is last-write-wins: after two puts with the same
key and different entries the store maps that key to exactly the second
entry, with no merge and no error; and two document units both yielding
key "01-01" leave only the second unit's content. -/
theorem c8_last_write_wins :
    (∀ (s : Store) (k v1 v2 : Str), v1 ≠ v2 →
      lookupKey (putEntry (putEntry s k v1) k v2) k = some v2)
    ∧ lookupKey (extractChapters [blobDupA, blobDupB]) "01-01".data
        = some "second unit content".data := by
  constructor
  · intro s k v1 v2 _
    exact lookup_put_self (putEntry s k v1) k v2
  · decide

/-- C8 witness: the two-put property at a concrete store, key and pair
of different entries. -/
theorem c8_witness :
    ("first".data : Str) ≠ "second".data
    ∧ lookupKey (putEntry (putEntry [] "01-01".data "first".data)
        "01-01".data "second".data) "01-01".data = some "second".data :=
  ⟨by decide, c8_last_write_wins.1 [] "01-01".data "first".data "second".data (by decide)⟩

/-- C10: the "Day N" pattern of Strategy B is an unanchored
case-insensitive substring search, so the title "Sunday 12", which
contains no date expression but ends in a word ending in "day" followed
by a number, matches neither month pattern yet yields the date key
"01-12" rather than none. -/
theorem c10_sunday :
    searchPos p1At (pyStrip "Sunday 12".data) = none
    ∧ searchPos p2At (pyStrip "Sunday 12".data) = none
    ∧ extractDateFromTitle "Sunday 12".data = some "01-12".data :=
  ⟨by decide, by decide, by decide⟩

/-- C6: when neither month-name pattern matches a title, the day digits
found by the "Day N" scan with value in [1, 366] yield the date key of
the N-th day of the reference leap year (so "Day 60" yields "02-29"),
and a value outside [1, 366] yields no date. -/
theorem c6_day_n :
    (∀ (title digs : Str),
      searchPos p1At (pyStrip title) = none →
      searchPos p2At (pyStrip title) = none →
      searchPos p3At (pyStrip title) = some digs →
      (1 ≤ digitsToNat digs ∧ digitsToNat digs ≤ 366 →
        extractDateFromTitle title = some (dayOfYearKey (digitsToNat digs)))
      ∧ (¬(1 ≤ digitsToNat digs ∧ digitsToNat digs ≤ 366) →
        extractDateFromTitle title = none))
    ∧ extractDateFromTitle "Day 60".data = some "02-29".data := by
  constructor
  · intro title digs h1 h2 h3
    constructor
    · intro hr
      simp only [extractDateFromTitle, h1, h2, h3, if_pos hr]
    · intro hr
      simp only [extractDateFromTitle, h1, h2, h3, if_neg hr]
  · decide

/-- C6 witness: the title "Day 60" matches neither month pattern, its
"Day N" scan finds the digits "60" in range, and the result is the date
key of day 60 of the reference leap year, "02-29". -/
theorem c6_witness :
    searchPos p1At (pyStrip "Day 60".data) = none
    ∧ searchPos p2At (pyStrip "Day 60".data) = none
    ∧ searchPos p3At (pyStrip "Day 60".data) = some "60".data
    ∧ (1 ≤ digitsToNat "60".data ∧ digitsToNat "60".data ≤ 366)
    ∧ extractDateFromTitle "Day 60".data
        = some (dayOfYearKey (digitsToNat "60".data)) :=
  ⟨by decide, by decide, by decide, by decide,
    (c6_day_n.1 "Day 60".data "60".data (by decide) (by decide) (by decide)).1
      (by decide)⟩

/-- C9: the audit checks the store against exactly the 366 valid
leap-year keys (Feb 29 included); a key is reported missing iff it is a
valid key absent from the store; a store holding all 366 keys reports
zero missing dates; and serialization of the sorted store is the first
observable effect of save_chapters, never blocked by the audit. -/
theorem c9_audit :
    validKeys.length = 366
    ∧ "02-29".data ∈ validKeys
    ∧ (∀ (store : Store) (k : Str),
        k ∈ missingDates store ↔ k ∈ validKeys ∧ lookupKey store k = none)
    ∧ (∀ store : Store,
        (∀ k ∈ validKeys, (lookupKey store k).isSome = true) →
        missingDates store = [])
    ∧ (∀ store : Store,
        (saveChapters store).head? = some (SaveEvent.serialize (sortStore store))) := by
  refine ⟨by decide, by decide, ?_, ?_, ?_⟩
  · intro store k
    simp only [missingDates, List.mem_filter, Option.isNone_iff_eq_none]
  · intro store h
    simp only [missingDates]
    rw [List.filter_eq_nil_iff]
    intro k hk
    have hs := h k hk
    intro hcon
    rw [Option.isNone_iff_eq_none] at hcon
    rw [hcon] at hs
    simp at hs
  · intro store
    rfl

/-- C9 witness: a store holding an entry for every valid key satisfies
the completeness hypothesis and audits to zero missing dates. -/
theorem c9_witness :
    (∀ k ∈ validKeys, (lookupKey fullStore k).isSome = true)
    ∧ missingDates fullStore = [] := by
  have hmem : ∀ k ∈ validKeys, (lookupKey fullStore k).isSome = true := by
    intro k hk
    apply lookupKey_isSome_of_mem_keys
    have hkeys : fullStore.map Prod.fst = validKeys := by
      rw [fullStore, List.map_map]
      exact List.map_id validKeys
    rw [hkeys]
    exact hk
  exact ⟨hmem, c9_audit.2.2.2.1 fullStore hmem⟩

/-- C4: contrary to the claim, a run of the calendar pipeline that
extracts zero entries is not escalated as a hard failure: on the empty
blob it extracts nothing, prints an error, and returns normally with
exit status 0, not 1. -/
theorem c4_counterexample :
    extractChapters [("" : String).data] = []
    ∧ (calendarMain [("" : String).data]).exitCode = 0
    ∧ (calendarMain [("" : String).data]).exitCode ≠ 1 :=
  ⟨by decide, by decide, by decide⟩

/-- C4 (amended): per-marker and per-unit failures are local and do not
propagate: a vocabulary miss or a normalization reject leaves the store
unchanged by that marker, and a unit with no date in its title leaves
the store unchanged by that unit. A run that extracts zero entries is
escalated as a hard failure (exit status 1, nothing saved) by the
generic extract_epub pipeline, while the calendar pipeline always
returns exit status 0, saving nothing when zero entries were
extracted. -/
theorem c4_propagation :
    (∀ (store : Store) (m : MarkerMatch) (span : Str),
      monthToNumber m.month = none → stepA store (m, span) = store)
    ∧ (∀ (store : Store) (m : MarkerMatch) (span : Str),
      (normalizeText span).length ≤ 10 → stepA store (m, span) = store)
    ∧ (∀ (store : Store) (u : DocUnit),
      extractDateFromTitle u.title = none → stepB store u = store)
    ∧ (∀ units : List DocUnit,
      extractChaptersB units = [] → epubMain units = ⟨1, none⟩)
    ∧ (∀ units : List DocUnit,
      extractChaptersB units ≠ [] → (epubMain units).exitCode = 0)
    ∧ (∀ blobs : List Str, (calendarMain blobs).exitCode = 0)
    ∧ (∀ blobs : List Str,
      extractChapters blobs = [] → calendarMain blobs = ⟨0, none⟩) := by
  refine ⟨?_, ?_, ?_, ?_, ?_, ?_, ?_⟩
  · intro store m span h
    simp [stepA, h]
  · intro store m span h
    simp only [stepA]
    match hmn : monthToNumber m.month with
    | none => rfl
    | some mn =>
      show (if normalizeText span ≠ [] ∧ 10 < (normalizeText span).length then
          putEntry store (mn ++ '-' :: zfill2 m.day) (normalizeText span)
        else store) = store
      rw [if_neg]
      intro hand
      exact absurd hand.2 (Nat.not_lt.mpr h)
  · intro store u h
    simp [stepB, h]
  · intro units h
    simp [epubMain, h]
  · intro units h
    simp only [epubMain]
    rw [if_neg (by simp [List.isEmpty_iff, h])]
  · intro blobs
    simp only [calendarMain]
    split
    · rfl
    · rfl
  · intro blobs h
    simp [calendarMain, h]

/-- C4 witness: the amended propagation policy at concrete inputs: an
empty unit list escalates exit 1; a dateless unit is skipped locally; a
dated unit yields a non-empty store and exit 0. -/
theorem c4_witness :
    extractChaptersB [] = ([] : Store)
    ∧ epubMain [] = ⟨1, none⟩
    ∧ extractDateFromTitle unitNoDate.title = none
    ∧ stepB [] unitNoDate = []
    ∧ extractChaptersB [unitJan] ≠ []
    ∧ (epubMain [unitJan]).exitCode = 0 :=
  ⟨by decide, c4_propagation.2.2.2.1 [] (by decide), by decide,
    c4_propagation.2.2.1 [] unitNoDate (by decide), by decide,
    c4_propagation.2.2.2.2.1 [unitJan] (by decide)⟩

end DailyBook
